import Mathlib

/-!
Verification of the cryptographic core of a client-side PII text
encryption tool (`src/lib/crypto.ts`): Argon2id key derivation,
AES-GCM sealing, a version-1 base64-JSON envelope format, and the
password-strength heuristic.

The external cryptographic primitives (the `argon2-browser` library and
Web Crypto AES-GCM) are not part of the repository; they are kept
abstract as a `CryptoPrims` structure, and every theorem that needs a
cryptographic property of them (AEAD round-trip, or rejection at a
particular tampered input) takes that property as an explicit pointwise
hypothesis.  The environment text primitives (`btoa`/`atob`,
`JSON.stringify`/`JSON.parse`, `TextEncoder`/`TextDecoder`) are
modelled executably on the fragment this protocol uses.
-/

set_option maxRecDepth 100000

/-- Byte sequences are modelled as lists of naturals below 256. -/
def isBytes (l : List Nat) : Prop := ∀ b ∈ l, b < 256

instance (l : List Nat) : Decidable (isBytes l) := List.decidableBAll _ l

/-! ## Base64 (model of the environment `btoa` / `atob`)

`btoa` takes a binary string (characters with code points below 256) and
produces standard RFC 4648 base64 with `=` padding; `atob` inverts it and
throws on characters outside the base64 alphabet, on misplaced padding and
on truncated input.  We model the binary strings by their byte lists. -/

/-- Base64 alphabet used by `btoa`/`atob`. -/
def b64Alphabet : List Char :=
  "ABCDEFGHIJKLMNOPQRSTUVWXYZabcdefghijklmnopqrstuvwxyz0123456789+/".data

/-- Character for a six-bit group (out-of-range groups map to a junk
character; `btoa` is only applied to genuine bytes). -/
def b64Char (n : Nat) : Char := b64Alphabet.getD n '?'

/-- Index of a character in the base64 alphabet, `none` if absent. -/
def b64Decode (c : Char) : Option Nat :=
  let i := b64Alphabet.indexOf c
  if i < 64 then some i else none

/-- Model of `btoa` on byte lists: three bytes become four characters,
with `=` padding closing a final group of one or two bytes. -/
def btoaChunks : List Nat → List Char
  | [] => []
  | [b1] => [b64Char (b1 / 4), b64Char (b1 % 4 * 16), '=', '=']
  | [b1, b2] =>
    [b64Char (b1 / 4), b64Char (b1 % 4 * 16 + b2 / 16), b64Char (b2 % 16 * 4), '=']
  | b1 :: b2 :: b3 :: rest =>
    b64Char (b1 / 4) :: b64Char (b1 % 4 * 16 + b2 / 16) ::
      b64Char (b2 % 16 * 4 + b3 / 64) :: b64Char (b3 % 64) :: btoaChunks rest

/-- Model of `atob`: decodes groups of four characters, accepting `=`
padding only at the very end; `none` models the `InvalidCharacterError`
thrown by the environment. -/
def atobDecode : List Char → Option (List Nat)
  | [] => some []
  | c1 :: c2 :: c3 :: c4 :: rest =>
    match b64Decode c1, b64Decode c2 with
    | some s1, some s2 =>
      if c3 = '=' then
        if c4 = '=' ∧ rest = [] then some [s1 * 4 + s2 / 16] else none
      else
        match b64Decode c3 with
        | some s3 =>
          if c4 = '=' then
            if rest = [] then some [s1 * 4 + s2 / 16, s2 % 16 * 16 + s3 / 4] else none
          else
            match b64Decode c4 with
            | some s4 =>
              (atobDecode rest).map
                (fun bs => (s1 * 4 + s2 / 16) :: (s2 % 16 * 16 + s3 / 4) :: (s3 % 4 * 64 + s4) :: bs)
            | none => none
        | none => none
    | _, _ => none
  | _ => none

/-- Model of `btoa` producing the transport string. -/
def btoa (bytes : List Nat) : String := ⟨btoaChunks bytes⟩

/-- Model of `atob`, giving the code points of the decoded binary string. -/
def atobCodes (s : String) : Option (List Nat) := atobDecode s.data

theorem b64Decode_b64Char : ∀ s : Nat, s < 64 → b64Decode (b64Char s) = some s := by decide

theorem b64Alphabet_length : b64Alphabet.length = 64 := by decide

theorem b64Char_of_ge (n : Nat) (h : 64 ≤ n) : b64Char n = '?' := by
  unfold b64Char
  exact List.getD_eq_default _ _ (by rw [b64Alphabet_length]; omega)

theorem b64Char_ne_pad (n : Nat) : b64Char n ≠ '=' := by
  by_cases h : n < 64
  · revert h; revert n; decide
  · rw [b64Char_of_ge n (by omega)]; decide

theorem b64Char_ne_quote (n : Nat) : b64Char n ≠ '"' := by
  by_cases h : n < 64
  · revert h; revert n; decide
  · rw [b64Char_of_ge n (by omega)]; decide

theorem b64Char_ascii (n : Nat) : (b64Char n).toNat < 128 := by
  by_cases h : n < 64
  · revert h; revert n; decide
  · rw [b64Char_of_ge n (by omega)]; decide

/-- Every character emitted by `btoaChunks` is an alphabet character or
the padding character. -/
theorem btoaChunks_mem (l : List Nat) :
    ∀ c ∈ btoaChunks l, (∃ n, c = b64Char n) ∨ c = '=' := by
  induction l using btoaChunks.induct with
  | case1 => intro c hc; simp [btoaChunks] at hc
  | case2 b1 =>
    intro c hc
    simp only [btoaChunks, List.mem_cons, List.not_mem_nil, or_false] at hc
    rcases hc with h | h | h | h
    · exact Or.inl ⟨_, h⟩
    · exact Or.inl ⟨_, h⟩
    · exact Or.inr h
    · exact Or.inr h
  | case3 b1 b2 =>
    intro c hc
    simp only [btoaChunks, List.mem_cons, List.not_mem_nil, or_false] at hc
    rcases hc with h | h | h | h
    · exact Or.inl ⟨_, h⟩
    · exact Or.inl ⟨_, h⟩
    · exact Or.inl ⟨_, h⟩
    · exact Or.inr h
  | case4 b1 b2 b3 rest ih =>
    intro c hc
    simp only [btoaChunks, List.mem_cons] at hc
    rcases hc with h | h | h | h | h
    · exact Or.inl ⟨_, h⟩
    · exact Or.inl ⟨_, h⟩
    · exact Or.inl ⟨_, h⟩
    · exact Or.inl ⟨_, h⟩
    · exact ih c h

theorem btoaChunks_no_quote (l : List Nat) : '"' ∉ btoaChunks l := by
  intro hmem
  rcases btoaChunks_mem l _ hmem with ⟨n, h⟩ | h
  · exact b64Char_ne_quote n h.symm
  · exact absurd h.symm (by decide)

theorem btoaChunks_ascii (l : List Nat) : ∀ c ∈ btoaChunks l, c.toNat < 128 := by
  intro c hc
  rcases btoaChunks_mem l _ hc with ⟨n, h⟩ | h
  · exact h ▸ b64Char_ascii n
  · subst h; decide

/-- Round-trip of the base64 model on byte lists. -/
theorem atobDecode_btoaChunks (l : List Nat) (h : isBytes l) :
    atobDecode (btoaChunks l) = some l := by
  induction l using btoaChunks.induct with
  | case1 => rfl
  | case2 b1 =>
    have hb1 : b1 < 256 := h b1 (by simp)
    simp only [btoaChunks, atobDecode,
      b64Decode_b64Char (b1 / 4) (by omega),
      b64Decode_b64Char (b1 % 4 * 16) (by omega)]
    norm_num
    omega
  | case3 b1 b2 =>
    have hb1 : b1 < 256 := h b1 (by simp)
    have hb2 : b2 < 256 := h b2 (by simp)
    simp only [btoaChunks, atobDecode,
      b64Decode_b64Char (b1 / 4) (by omega),
      b64Decode_b64Char (b1 % 4 * 16 + b2 / 16) (by omega),
      b64Decode_b64Char (b2 % 16 * 4) (by omega),
      if_neg (b64Char_ne_pad (b2 % 16 * 4))]
    norm_num
    constructor <;> omega
  | case4 b1 b2 b3 rest ih =>
    have hb1 : b1 < 256 := h b1 (by simp)
    have hb2 : b2 < 256 := h b2 (by simp)
    have hb3 : b3 < 256 := h b3 (by simp)
    have hrest : isBytes rest := fun b hb => h b (by simp [hb])
    simp only [btoaChunks, atobDecode,
      b64Decode_b64Char (b1 / 4) (by omega),
      b64Decode_b64Char (b1 % 4 * 16 + b2 / 16) (by omega),
      b64Decode_b64Char (b2 % 16 * 4 + b3 / 64) (by omega),
      b64Decode_b64Char (b3 % 64) (by omega),
      if_neg (b64Char_ne_pad (b2 % 16 * 4 + b3 / 64)),
      if_neg (b64Char_ne_pad (b3 % 64)),
      ih hrest, Option.map_some]
    have e1 : b1 / 4 * 4 + (b1 % 4 * 16 + b2 / 16) / 16 = b1 := by omega
    have e2 : (b1 % 4 * 16 + b2 / 16) % 16 * 16 + (b2 % 16 * 4 + b3 / 64) / 4 = b2 := by omega
    have e3 : (b2 % 16 * 4 + b3 / 64) % 4 * 64 + b3 % 64 = b3 := by omega
    rw [e1, e2, e3]
    rfl

theorem atobCodes_btoa (l : List Nat) (h : isBytes l) : atobCodes (btoa l) = some l :=
  atobDecode_btoaChunks l h

/-! ## UTF-8 (model of `TextEncoder` / `TextDecoder`)

`TextEncoder().encode` produces the UTF-8 bytes of a string;
`TextDecoder().decode` (in its default, non-fatal mode) parses UTF-8,
substituting U+FFFD on invalid input.  The decoder is modelled as a
byte-at-a-time state machine; its behaviour on valid UTF-8 — the only
path any theorem below depends on — is exact, while on invalid input it
emits replacement characters with a simplified resynchronisation. -/

/-- UTF-8 encoding of one scalar value. -/
def utf8EncodeChar (c : Char) : List Nat :=
  let n := c.toNat
  if n < 0x80 then [n]
  else if n < 0x800 then [0xC0 + n / 0x40, 0x80 + n % 0x40]
  else if n < 0x10000 then
    [0xE0 + n / 0x1000, 0x80 + n / 0x40 % 0x40, 0x80 + n % 0x40]
  else
    [0xF0 + n / 0x40000, 0x80 + n / 0x1000 % 0x40, 0x80 + n / 0x40 % 0x40, 0x80 + n % 0x40]

/-- Model of `TextEncoder().encode`. -/
def utf8Encode (s : String) : List Nat := s.data.flatMap utf8EncodeChar

/-- Unicode replacement character U+FFFD. -/
def replChar : Char := Char.ofNat 0xFFFD

def isCont (b : Nat) : Bool := 0x80 ≤ b && b < 0xC0

/-- Is `n` a scalar value correctly encoded by a sequence with `exp`
continuation bytes (no overlong form, no surrogate, in range)? -/
def utf8ValidScalar (exp n : Nat) : Bool :=
  if exp = 1 then decide (0x80 ≤ n)
  else if exp = 2 then decide (0x800 ≤ n ∧ (n < 0xD800 ∨ 0xE000 ≤ n))
  else decide (0x10000 ≤ n ∧ n < 0x110000)

/-- Decoder state machine: `exp` is the expected number of continuation
bytes of the current sequence, `need` how many are still missing, `acc`
the scalar value accumulated so far. -/
def utf8Go (exp need acc : Nat) : List Nat → List Char
  | [] => if need = 0 then [] else [replChar]
  | b :: rest =>
    if need = 0 then
      if b < 0x80 then Char.ofNat b :: utf8Go 0 0 0 rest
      else if b < 0xC0 then replChar :: utf8Go 0 0 0 rest
      else if b < 0xE0 then utf8Go 1 1 (b - 0xC0) rest
      else if b < 0xF0 then utf8Go 2 2 (b - 0xE0) rest
      else if b < 0xF8 then utf8Go 3 3 (b - 0xF0) rest
      else replChar :: utf8Go 0 0 0 rest
    else if isCont b then
      if need = 1 then
        (if utf8ValidScalar exp (acc * 0x40 + (b - 0x80)) then
          Char.ofNat (acc * 0x40 + (b - 0x80)) else replChar) :: utf8Go 0 0 0 rest
      else utf8Go exp (need - 1) (acc * 0x40 + (b - 0x80)) rest
    else replChar :: utf8Go 0 0 0 rest

/-- Model of `TextDecoder().decode`. -/
def utf8Decode (l : List Nat) : String := ⟨utf8Go 0 0 0 l⟩

theorem charOfNat_toNat (c : Char) : Char.ofNat c.toNat = c := by
  have hv : c.toNat.isValidChar := c.valid
  rw [Char.ofNat, dif_pos hv]
  rcases c with ⟨⟨⟨⟨n, hn⟩⟩⟩, h⟩
  rfl

theorem char_toNat_valid (c : Char) :
    c.toNat < 0xD800 ∨ 0xE000 ≤ c.toNat ∧ c.toNat < 0x110000 := by
  have h : c.val.toNat < 55296 ∨ 57343 < c.val.toNat ∧ c.val.toNat < 1114112 := c.valid
  have he : c.toNat = c.val.toNat := rfl
  omega

/-- Decoding inverts encoding one character at a time. -/
theorem utf8Go_encodeChar (c : Char) (rest : List Nat) :
    utf8Go 0 0 0 (utf8EncodeChar c ++ rest) = c :: utf8Go 0 0 0 rest := by
  have hvalid := char_toNat_valid c
  have hofn := charOfNat_toNat c
  unfold utf8EncodeChar
  by_cases h1 : c.toNat < 0x80
  · rw [if_pos h1, List.cons_append, List.nil_append, utf8Go]
    rw [if_pos rfl, if_pos h1, hofn]
  · by_cases h2 : c.toNat < 0x800
    · rw [if_neg h1, if_pos h2, List.cons_append, List.cons_append, List.nil_append, utf8Go]
      rw [if_pos rfl, if_neg (by omega), if_neg (by omega), if_pos (by omega), utf8Go]
      rw [if_neg (by omega), if_pos (by unfold isCont; simp; omega), if_pos rfl]
      have hn : (c.toNat / 0x40 + 0xC0 - 0xC0) * 0x40 + (0x80 + c.toNat % 0x40 - 0x80)
          = c.toNat := by omega
      rw [show (0xC0 + c.toNat / 0x40 - 0xC0) = c.toNat / 0x40 by omega]
      rw [show c.toNat / 0x40 * 0x40 + (0x80 + c.toNat % 0x40 - 0x80) = c.toNat by omega]
      rw [show utf8ValidScalar 1 c.toNat = true by unfold utf8ValidScalar; simp; omega]
      rw [if_pos rfl, hofn]
    · by_cases h3 : c.toNat < 0x10000
      · rw [if_neg h1, if_neg h2, if_pos h3,
          List.cons_append, List.cons_append, List.cons_append, List.nil_append, utf8Go]
        rw [if_pos rfl, if_neg (by omega), if_neg (by omega), if_neg (by omega),
          if_pos (by omega), utf8Go]
        rw [if_neg (by omega), if_pos (by unfold isCont; simp; omega), if_neg (by omega), utf8Go]
        rw [if_neg (by omega), if_pos (by unfold isCont; simp; omega), if_pos rfl]
        rw [show (0xE0 + c.toNat / 0x1000 - 0xE0) = c.toNat / 0x1000 by omega]
        rw [show c.toNat / 0x1000 * 0x40 + (0x80 + c.toNat / 0x40 % 0x40 - 0x80)
            = c.toNat / 0x40 by omega]
        rw [show c.toNat / 0x40 * 0x40 + (0x80 + c.toNat % 0x40 - 0x80) = c.toNat by omega]
        rw [show utf8ValidScalar 2 c.toNat = true by unfold utf8ValidScalar; simp; omega]
        rw [if_pos rfl, hofn]
      · rw [if_neg h1, if_neg h2, if_neg h3, List.cons_append, List.cons_append,
          List.cons_append, List.cons_append, List.nil_append, utf8Go]
        rw [if_pos rfl, if_neg (by omega), if_neg (by omega), if_neg (by omega),
          if_neg (by omega), if_pos (by omega), utf8Go]
        rw [if_neg (by omega), if_pos (by unfold isCont; simp; omega), if_neg (by omega), utf8Go]
        rw [if_neg (by omega), if_pos (by unfold isCont; simp; omega), if_neg (by omega), utf8Go]
        rw [if_neg (by omega), if_pos (by unfold isCont; simp; omega), if_pos rfl]
        rw [show (0xF0 + c.toNat / 0x40000 - 0xF0) = c.toNat / 0x40000 by omega]
        rw [show c.toNat / 0x40000 * 0x40 + (0x80 + c.toNat / 0x1000 % 0x40 - 0x80)
            = c.toNat / 0x1000 by omega]
        rw [show c.toNat / 0x1000 * 0x40 + (0x80 + c.toNat / 0x40 % 0x40 - 0x80)
            = c.toNat / 0x40 by omega]
        rw [show c.toNat / 0x40 * 0x40 + (0x80 + c.toNat % 0x40 - 0x80) = c.toNat by omega]
        rw [show utf8ValidScalar 3 c.toNat = true by unfold utf8ValidScalar; simp; omega]
        rw [if_pos rfl, hofn]

/-- Round-trip of the text codec model. -/
theorem utf8Decode_utf8Encode (s : String) : utf8Decode (utf8Encode s) = s := by
  apply String.ext
  show utf8Go 0 0 0 (s.data.flatMap utf8EncodeChar) = s.data
  induction s.data with
  | nil => rfl
  | cons c cs ih =>
    rw [List.flatMap_cons, utf8Go_encodeChar, ih]

/-! ## JSON (model of `JSON.stringify` / `JSON.parse`)

The protocol only ever serialises objects whose values are unsigned
integers, base64 strings (no escapes needed) and one nested parameter
object.  The environment JSON functions are modelled exactly on this
fragment: `stringifyChars` matches what `JSON.stringify` emits for such
values (insertion-order fields, no whitespace), and the parser accepts
it back.  On inputs outside the fragment (arrays, floats, escapes) the
model parser simply fails, which no theorem below depends on. -/

mutual
inductive Json where
  | num : Nat → Json
  | str : String → Json
  | obj : JFields → Json
inductive JFields where
  | nil : JFields
  | cons : String → Json → JFields → JFields
end

/-- Decimal digit character. -/
def digitChar (n : Nat) : Char := Char.ofNat (48 + n % 10)

/-- Decimal digits of a natural number, with structural fuel. -/
def natCharsAux : Nat → Nat → List Char
  | 0, _ => []
  | fuel + 1, n =>
    if n < 10 then [digitChar n] else natCharsAux fuel (n / 10) ++ [digitChar (n % 10)]

def natChars (n : Nat) : List Char := natCharsAux (n + 1) n

def digitVal (c : Char) : Nat := c.toNat - 48

def digitsVal (l : List Char) : Nat := l.foldl (fun acc c => acc * 10 + digitVal c) 0

mutual
def stringifyChars : Json → List Char
  | .num n => natChars n
  | .str s => '"' :: s.data ++ ['"']
  | .obj fs => '{' :: (stringifyFieldsChars fs ++ ['}'])
def stringifyFieldsChars : JFields → List Char
  | .nil => []
  | .cons k v .nil => '"' :: (k.data ++ '"' :: ':' :: stringifyChars v)
  | .cons k v (.cons k2 v2 fs) =>
    '"' :: (k.data ++ '"' :: ':' :: (stringifyChars v ++ ',' ::
      stringifyFieldsChars (.cons k2 v2 fs)))
end

/-- Model of `JSON.stringify` on the protocol fragment. -/
def Json.stringify (j : Json) : String := ⟨stringifyChars j⟩

/-- Reads characters up to the closing quote of a string literal. -/
def parseStringBody : List Char → Option (List Char × List Char)
  | [] => none
  | c :: rest =>
    if c = '"' then some ([], rest)
    else (parseStringBody rest).map (fun p => (c :: p.1, p.2))

/-- Splits leading decimal digits from the input. -/
def takeDigits : List Char → List Char × List Char
  | [] => ([], [])
  | c :: rest =>
    if c.isDigit then
      let p := takeDigits rest
      (c :: p.1, p.2)
    else ([], c :: rest)

mutual
/-- Recursive-descent JSON value reader (fuel-structural). -/
def parseJsonVal : Nat → List Char → Option (Json × List Char)
  | 0, _ => none
  | _ + 1, [] => none
  | fuel + 1, c :: rest =>
    if c = '"' then (parseStringBody rest).map (fun p => (Json.str ⟨p.1⟩, p.2))
    else if c = '{' then (parseFieldList fuel rest).map (fun p => (Json.obj p.1, p.2))
    else if c.isDigit then
      let p := takeDigits (c :: rest)
      some (Json.num (digitsVal p.1), p.2)
    else none
/-- Reads the members of an object after the opening brace, consuming
the closing brace. -/
def parseFieldList : Nat → List Char → Option (JFields × List Char)
  | 0, _ => none
  | _ + 1, [] => none
  | fuel + 1, c :: rest =>
    if c = '}' then some (.nil, rest)
    else if c = '"' then
      match parseStringBody rest with
      | none => none
      | some (k, r1) =>
        match r1 with
        | [] => none
        | c1 :: r2 =>
          if c1 = ':' then
            match parseJsonVal fuel r2 with
            | some (v, c2 :: r3) =>
              if c2 = ',' then
                (parseFieldList fuel r3).map (fun p => (JFields.cons ⟨k⟩ v p.1, p.2))
              else if c2 = '}' then some (.cons ⟨k⟩ v .nil, r3)
              else none
            | _ => none
          else none
    else none
end

/-- Model of `JSON.parse`: parses a complete value, requiring the whole
input to be consumed. -/
def Json.parse (s : String) : Option Json :=
  match parseJsonVal (s.data.length + 1) s.data with
  | some (j, []) => some j
  | _ => none

mutual
def sizeJ : Json → Nat
  | .num _ => 1
  | .str _ => 1
  | .obj fs => sizeF fs + 1
def sizeF : JFields → Nat
  | .nil => 1
  | .cons _ v fs => sizeJ v + sizeF fs + 1
end

mutual
/-- Values on which the model JSON functions agree with the environment:
strings contain no quote (hence need no escaping). -/
def simpleJson : Json → Bool
  | .num _ => true
  | .str s => decide ('"' ∉ s.data)
  | .obj fs => simpleFields fs
def simpleFields : JFields → Bool
  | .nil => true
  | .cons k v fs => decide ('"' ∉ k.data) && simpleJson v && simpleFields fs
end

theorem digitChar_facts (n : Nat) :
    (digitChar n).isDigit = true ∧ (digitChar n).toNat < 128 ∧
    digitChar n ≠ '"' ∧ digitChar n ≠ '{' := by
  have h : n % 10 < 10 := Nat.mod_lt _ (by norm_num)
  unfold digitChar
  revert h
  generalize n % 10 = m
  revert m
  decide

theorem natCharsAux_spec (fuel : Nat) :
    ∀ n, n < fuel →
      natCharsAux fuel n ≠ [] ∧
      (∀ c ∈ natCharsAux fuel n, ∃ m, c = digitChar m) ∧
      (∀ acc, List.foldl (fun acc c => acc * 10 + digitVal c) acc (natCharsAux fuel n)
        = acc * 10 ^ (natCharsAux fuel n).length + n) := by
  induction fuel with
  | zero => intro n h; omega
  | succ fuel ih =>
    intro n h
    by_cases h10 : n < 10
    · rw [natCharsAux, if_pos h10]
      refine ⟨by simp, ?_, ?_⟩
      · intro c hc
        simp only [List.mem_singleton] at hc
        exact ⟨n, hc⟩
      · intro acc
        have hd : digitVal (digitChar n) = n := by
          unfold digitChar digitVal
          have hv : (48 + n % 10) < 0xD800 := by omega
          rw [Char.ofNat, dif_pos (Or.inl hv)]
          show 48 + n % 10 - 48 = n
          omega
        simp [hd]
    · rw [natCharsAux, if_neg h10]
      have hrec := ih (n / 10) (by omega)
      obtain ⟨hne, hmem, hval⟩ := hrec
      refine ⟨by simp, ?_, ?_⟩
      · intro c hc
        rcases List.mem_append.mp hc with hc | hc
        · exact hmem c hc
        · simp only [List.mem_singleton] at hc
          exact ⟨n % 10, hc⟩
      · intro acc
        rw [List.foldl_append, hval acc]
        have hd : digitVal (digitChar (n % 10)) = n % 10 := by
          unfold digitChar digitVal
          have hv : (48 + n % 10 % 10) < 0xD800 := by omega
          rw [Char.ofNat, dif_pos (Or.inl hv)]
          show 48 + n % 10 % 10 - 48 = n % 10
          omega
        simp only [List.foldl_cons, List.foldl_nil, List.length_append,
          List.length_singleton, hd]
        rw [pow_succ]
        ring_nf
        omega

theorem natChars_ne_nil (n : Nat) : natChars n ≠ [] :=
  (natCharsAux_spec (n + 1) n (by omega)).1

theorem natChars_mem (n : Nat) : ∀ c ∈ natChars n, ∃ m, c = digitChar m :=
  (natCharsAux_spec (n + 1) n (by omega)).2.1

theorem digitsVal_natChars (n : Nat) : digitsVal (natChars n) = n := by
  have h := ((natCharsAux_spec (n + 1) n (by omega)).2.2) 0
  simpa [digitsVal] using h

/-- Head of the remaining input is not a digit (so greedy number parsing
stops exactly at the serialised digits). -/
def headNotDigit : List Char → Prop
  | [] => True
  | c :: _ => c.isDigit = false

theorem parseStringBody_spec (l : List Char) (rest : List Char) (h : '"' ∉ l) :
    parseStringBody (l ++ '"' :: rest) = some (l, rest) := by
  induction l with
  | nil => simp [parseStringBody]
  | cons c cs ih =>
    have hc : c ≠ '"' := fun he => h (he ▸ List.mem_cons_self c cs)
    have hcs : '"' ∉ cs := fun hm => h (List.mem_cons_of_mem c hm)
    simp only [List.cons_append, parseStringBody, if_neg hc, List.append_eq, ih hcs]
    rfl

theorem takeDigits_spec (d rest : List Char)
    (hd : ∀ c ∈ d, c.isDigit = true) (hr : headNotDigit rest) :
    takeDigits (d ++ rest) = (d, rest) := by
  induction d with
  | nil =>
    cases rest with
    | nil => rfl
    | cons c r =>
      have : c.isDigit = false := hr
      simp [takeDigits, this]
  | cons c cs ih =>
    have hc : c.isDigit = true := hd c (List.mem_cons_self c cs)
    have hcs : ∀ x ∈ cs, x.isDigit = true := fun x hx => hd x (List.mem_cons_of_mem c hx)
    simp only [List.cons_append, takeDigits, hc, if_true, List.append_eq, ih hcs]

theorem sizeJ_pos (v : Json) : 1 ≤ sizeJ v := by
  cases v <;> simp [sizeJ]

theorem sizeF_pos (fs : JFields) : 1 ≤ sizeF fs := by
  cases fs <;> simp [sizeF]

theorem natChars_all_digits (n : Nat) : ∀ x ∈ natChars n, x.isDigit = true := by
  intro x hx
  obtain ⟨m, hm⟩ := natChars_mem n x hx
  rw [hm]
  exact (digitChar_facts m).1

/-- Printer-parser round-trip of the JSON model, simultaneously for
values and for nonempty field lists, by induction on parser fuel. -/
theorem parse_stringify_core (fuel : Nat) :
    (∀ v rest, simpleJson v = true → sizeJ v ≤ fuel → headNotDigit rest →
      parseJsonVal fuel (stringifyChars v ++ rest) = some (v, rest)) ∧
    (∀ k v fs rest, simpleFields (.cons k v fs) = true →
      sizeF (.cons k v fs) ≤ fuel →
      parseFieldList fuel (stringifyFieldsChars (.cons k v fs) ++ '}' :: rest)
        = some (.cons k v fs, rest)) := by
  induction fuel with
  | zero =>
    constructor
    · intro v rest _ hs _
      have := sizeJ_pos v
      omega
    · intro k v fs rest _ hs
      have := sizeF_pos (.cons k v fs)
      omega
  | succ fuel ih =>
    obtain ⟨ih1, ih2⟩ := ih
    constructor
    · intro v rest hsimple hsize hnd
      cases v with
      | num n =>
        obtain ⟨c, ds, hcd⟩ : ∃ c ds, natChars n = c :: ds := by
          cases h : natChars n with
          | nil => exact absurd h (natChars_ne_nil n)
          | cons a b => exact ⟨a, b, rfl⟩
        obtain ⟨m, hm⟩ : ∃ m, c = digitChar m := by
          refine natChars_mem n c ?_
          rw [hcd]
          exact List.mem_cons_self c ds
        have hdigit : c.isDigit = true := by rw [hm]; exact (digitChar_facts m).1
        have hnq : c ≠ '"' := by rw [hm]; exact (digitChar_facts m).2.2.1
        have hnb : c ≠ '{' := by rw [hm]; exact (digitChar_facts m).2.2.2
        have htd : takeDigits (natChars n ++ rest) = (natChars n, rest) :=
          takeDigits_spec _ _ (natChars_all_digits n) hnd
        show parseJsonVal (fuel + 1) (natChars n ++ rest) = some (.num n, rest)
        rw [hcd, List.cons_append, parseJsonVal, if_neg hnq, if_neg hnb]
        simp only [hdigit, if_true, ← List.cons_append, ← hcd, htd, digitsVal_natChars]
      | str s =>
        rw [simpleJson] at hsimple
        have hq : '"' ∉ s.data := of_decide_eq_true hsimple
        show parseJsonVal (fuel + 1) ((('"' :: s.data) ++ ['"']) ++ rest) = some (.str s, rest)
        rw [List.append_assoc, List.cons_append, List.singleton_append, parseJsonVal,
          if_pos rfl, parseStringBody_spec s.data rest hq]
        rfl
      | obj fs =>
        rw [simpleJson] at hsimple
        cases fs with
        | nil =>
          have h1 : 1 ≤ fuel := by
            have : sizeJ (.obj .nil) = 2 := by simp [sizeJ, sizeF]
            omega
          obtain ⟨fuel2, rfl⟩ : ∃ f2, fuel = f2 + 1 := ⟨fuel - 1, by omega⟩
          show parseJsonVal (fuel2 + 1 + 1) (('{' :: ([] ++ ['}'])) ++ rest)
            = some (.obj .nil, rest)
          rw [List.nil_append, List.cons_append, List.singleton_append, parseJsonVal,
            if_neg (by decide), if_pos rfl, parseFieldList, if_pos rfl]
          rfl
        | cons k v fs2 =>
          have hsz : sizeF (.cons k v fs2) ≤ fuel := by
            have : sizeJ (.obj (.cons k v fs2)) = sizeF (.cons k v fs2) + 1 := by
              simp [sizeJ]
            omega
          show parseJsonVal (fuel + 1)
            (('{' :: (stringifyFieldsChars (.cons k v fs2) ++ ['}'])) ++ rest)
            = some (.obj (.cons k v fs2), rest)
          rw [List.cons_append, List.append_assoc, List.singleton_append, parseJsonVal,
            if_neg (by decide), if_pos rfl, ih2 k v fs2 rest hsimple hsz]
          rfl
    · intro k v fs rest hsimple hsize
      rw [simpleFields, Bool.and_assoc, Bool.and_eq_true] at hsimple
      obtain ⟨hkq, hrest⟩ := hsimple
      rw [Bool.and_eq_true] at hrest
      obtain ⟨hv, hfs⟩ := hrest
      have hkq2 : '"' ∉ k.data := of_decide_eq_true hkq
      have hvsz : sizeJ v ≤ fuel := by
        simp only [sizeF] at hsize
        have := sizeF_pos fs
        omega
      cases fs with
      | nil =>
        show parseFieldList (fuel + 1)
          (('"' :: (k.data ++ '"' :: ':' :: stringifyChars v)) ++ '}' :: rest)
          = some (.cons k v .nil, rest)
        rw [List.cons_append, parseFieldList, if_neg (by decide), if_pos rfl]
        rw [List.append_assoc, List.cons_append]
        rw [parseStringBody_spec k.data _ hkq2]
        show (match ':' :: (stringifyChars v ++ '}' :: rest) with
          | [] => none
          | c1 :: r2 =>
            if c1 = ':' then
              match parseJsonVal fuel r2 with
              | some (vv, c2 :: r3) =>
                if c2 = ',' then
                  (parseFieldList fuel r3).map (fun p => (JFields.cons ⟨k.data⟩ vv p.1, p.2))
                else if c2 = '}' then some (.cons ⟨k.data⟩ vv .nil, r3)
                else none
              | _ => none
            else none) = some (.cons k v .nil, rest)
        rw [show (⟨k.data⟩ : String) = k from rfl]
        simp only [if_pos rfl]
        rw [ih1 v ('}' :: rest) hv hvsz (by simp [headNotDigit])]
        simp
      | cons k2 v2 fs2 =>
        have hfsz : sizeF (.cons k2 v2 fs2) ≤ fuel := by
          simp only [sizeF] at hsize ⊢
          have := sizeJ_pos v
          simp only [sizeF] at hvsz
          omega
        show parseFieldList (fuel + 1)
          (('"' :: (k.data ++ '"' :: ':' :: (stringifyChars v ++ ',' ::
            stringifyFieldsChars (.cons k2 v2 fs2)))) ++ '}' :: rest)
          = some (.cons k v (.cons k2 v2 fs2), rest)
        rw [List.cons_append, parseFieldList, if_neg (by decide), if_pos rfl]
        rw [List.append_assoc, List.cons_append]
        rw [parseStringBody_spec k.data _ hkq2]
        show (match ':' :: ((stringifyChars v ++ ',' ::
            stringifyFieldsChars (.cons k2 v2 fs2)) ++ '}' :: rest) with
          | [] => none
          | c1 :: r2 =>
            if c1 = ':' then
              match parseJsonVal fuel r2 with
              | some (vv, c2 :: r3) =>
                if c2 = ',' then
                  (parseFieldList fuel r3).map (fun p => (JFields.cons ⟨k.data⟩ vv p.1, p.2))
                else if c2 = '}' then some (.cons ⟨k.data⟩ vv .nil, r3)
                else none
              | _ => none
            else none) = some (.cons k v (.cons k2 v2 fs2), rest)
        rw [show (⟨k.data⟩ : String) = k from rfl]
        simp only [if_pos rfl]
        rw [List.append_assoc, List.cons_append]
        rw [ih1 v _ hv hvsz (by simp [headNotDigit])]
        simp only [if_pos rfl]
        rw [ih2 k2 v2 fs2 rest (by rw [simpleFields]; exact hfs) hfsz]
        rfl

mutual
theorem sizeJ_le_len (v : Json) : sizeJ v ≤ (stringifyChars v).length + 1 := by
  cases v with
  | num n => simp [sizeJ]
  | str s => simp [sizeJ]
  | obj fs =>
    have h := sizeF_le_len fs
    simp only [sizeJ, stringifyChars, List.length_cons, List.length_append]
    simp at h ⊢
    omega
theorem sizeF_le_len (fs : JFields) : sizeF fs ≤ (stringifyFieldsChars fs).length + 2 := by
  cases fs with
  | nil => simp [sizeF, stringifyFieldsChars]
  | cons k v fs2 =>
    have h1 := sizeJ_le_len v
    cases fs2 with
    | nil =>
      simp only [sizeF, stringifyFieldsChars, List.length_cons, List.length_append]
      simp
      omega
    | cons k2 v2 fs3 =>
      have h2 := sizeF_le_len (.cons k2 v2 fs3)
      simp only [sizeF, stringifyFieldsChars, List.length_cons, List.length_append] at h2 ⊢
      simp at h2 ⊢
      omega
end

/-- The parser inverts the printer on the simple fragment. -/
theorem json_parse_stringify (v : Json) (h : simpleJson v = true) :
    Json.parse (Json.stringify v) = some v := by
  have hlen : sizeJ v ≤ (stringifyChars v).length + 1 := sizeJ_le_len v
  have hcore := (parse_stringify_core ((stringifyChars v).length + 1)).1 v [] h hlen trivial
  rw [List.append_nil] at hcore
  show (match parseJsonVal ((stringifyChars v).length + 1) (stringifyChars v) with
    | some (j, []) => some j
    | _ => none) = some v
  rw [hcore]

mutual
/-- Values whose serialisation uses only 7-bit characters. -/
def asciiJson : Json → Bool
  | .num _ => true
  | .str s => s.data.all (fun c => decide (c.toNat < 128))
  | .obj fs => asciiFields fs
def asciiFields : JFields → Bool
  | .nil => true
  | .cons k v fs =>
    k.data.all (fun c => decide (c.toNat < 128)) && asciiJson v && asciiFields fs
end

mutual
theorem stringify_ascii (v : Json) (h : asciiJson v = true) :
    ∀ c ∈ stringifyChars v, c.toNat < 128 := by
  cases v with
  | num n =>
    intro c hc
    obtain ⟨m, hm⟩ := natChars_mem n c hc
    rw [hm]
    exact (digitChar_facts m).2.1
  | str s =>
    intro c hc
    rw [asciiJson, List.all_eq_true] at h
    show c.toNat < 128
    rcases List.mem_cons.mp hc with hc | hc
    · subst hc; decide
    · rcases List.mem_append.mp hc with hc | hc
      · exact of_decide_eq_true (h c hc)
      · simp only [List.mem_singleton] at hc
        subst hc; decide
  | obj fs =>
    intro c hc
    rw [asciiJson] at h
    rcases List.mem_cons.mp hc with hc | hc
    · subst hc; decide
    · rcases List.mem_append.mp hc with hc | hc
      · exact stringifyFields_ascii fs h c hc
      · simp only [List.mem_singleton] at hc
        subst hc; decide
theorem stringifyFields_ascii (fs : JFields) (h : asciiFields fs = true) :
    ∀ c ∈ stringifyFieldsChars fs, c.toNat < 128 := by
  cases fs with
  | nil => intro c hc; simp [stringifyFieldsChars] at hc
  | cons k v fs2 =>
    rw [asciiFields, Bool.and_assoc, Bool.and_eq_true] at h
    obtain ⟨hk, h2⟩ := h
    rw [Bool.and_eq_true] at h2
    obtain ⟨hv, hfs⟩ := h2
    rw [List.all_eq_true] at hk
    cases fs2 with
    | nil =>
      intro c hc
      rcases List.mem_cons.mp hc with hc | hc
      · subst hc; decide
      · rcases List.mem_append.mp hc with hc | hc
        · exact of_decide_eq_true (hk c hc)
        · rcases List.mem_cons.mp hc with hc | hc
          · subst hc; decide
          · rcases List.mem_cons.mp hc with hc | hc
            · subst hc; decide
            · exact stringify_ascii v hv c hc
    | cons k2 v2 fs3 =>
      intro c hc
      rcases List.mem_cons.mp hc with hc | hc
      · subst hc; decide
      · rcases List.mem_append.mp hc with hc | hc
        · exact of_decide_eq_true (hk c hc)
        · rcases List.mem_cons.mp hc with hc | hc
          · subst hc; decide
          · rcases List.mem_cons.mp hc with hc | hc
            · subst hc; decide
            · rcases List.mem_append.mp hc with hc | hc
              · exact stringify_ascii v hv c hc
              · rcases List.mem_cons.mp hc with hc | hc
                · subst hc; decide
                · exact stringifyFields_ascii (.cons k2 v2 fs3) (by
                    rw [asciiFields]
                    rw [asciiFields] at hfs
                    exact hfs) c hc
end

/-! ## Model of `src/lib/crypto.ts`

`encryptText` and `decryptText` are translated from the source.  The
randomness consumed by `crypto.getRandomValues` (a fresh 16-byte salt
and 12-byte nonce per call) is passed explicitly; the localStorage
settings store is passed as an optional `Settings` value; the external
Argon2id and AES-GCM primitives are a `CryptoPrims` parameter. -/

/-- Encryption settings kept by the UI in localStorage. -/
structure Settings where
  iterations : Nat
  memory : Nat
  hashLength : Nat
deriving DecidableEq, Repr

/-- Defaults returned when no settings are saved. -/
def defaultSettings : Settings := ⟨2, 102400, 32⟩

/-- Model of `getEncryptionSettings`: read the ambient store, falling
back to the built-in defaults. -/
def getEncryptionSettings (store : Option Settings) : Settings :=
  store.getD defaultSettings

/-- External primitives: Argon2id from `argon2-browser` and AES-GCM
from Web Crypto, abstract because they are not part of the repository.
`argonHash pass salt time mem hashLen` is the derived key;
`aeadSeal key nonce plaintext` is the ciphertext concatenated with the
authentication tag, and `aeadOpen key nonce sealed` inverts it or
fails. -/
structure CryptoPrims where
  argonHash : String → List Nat → Nat → Nat → Nat → List Nat
  aeadSeal : List Nat → List Nat → List Nat → List Nat
  aeadOpen : List Nat → List Nat → List Nat → Option (List Nat)

/-- The version-1 JSON payload built by `encryptText`, with fields in
the order of the source object literal. -/
def encPayload (salt nonce ct : List Nat) (s : Settings) : Json :=
  .obj (.cons "v" (.num 1)
    (.cons "salt" (.str (btoa salt))
      (.cons "nonce" (.str (btoa nonce))
        (.cons "ciphertext" (.str (btoa ct))
          (.cons "params" (.obj (.cons "iterations" (.num s.iterations)
            (.cons "memory" (.num s.memory)
              (.cons "hashLen" (.num s.hashLength) .nil)))) .nil)))))

/-- Code points of a string (the binary string handed to `btoa`). -/
def strCodes (s : String) : List Nat := s.data.map Char.toNat

/-- String from code points (the binary string returned by `atob`). -/
def codesStr (l : List Nat) : String := ⟨l.map Char.ofNat⟩

/-- The key derived at encryption time. -/
def encKey (prims : CryptoPrims) (store : Option Settings)
    (salt : List Nat) (secret : String) : List Nat :=
  let s := getEncryptionSettings store
  prims.argonHash secret salt s.iterations s.memory s.hashLength

/-- The sealed ciphertext-plus-tag produced at encryption time. -/
def sealedBytes (prims : CryptoPrims) (store : Option Settings)
    (salt nonce : List Nat) (plaintext secret : String) : List Nat :=
  prims.aeadSeal (encKey prims store salt secret) nonce (utf8Encode plaintext)

/-- Model of `encryptText`: derive the key with the ambient settings,
seal the UTF-8 plaintext under the fresh nonce, and base64-encode the
JSON payload that embeds the salt, nonce, ciphertext and the parameters
used. -/
def encryptText (prims : CryptoPrims) (store : Option Settings)
    (salt nonce : List Nat) (plaintext secret : String) : String :=
  btoa (strCodes (Json.stringify
    (encPayload salt nonce (sealedBytes prims store salt nonce plaintext secret)
      (getEncryptionSettings store))))

/-- Internal failure kinds of `decryptText`, one per throw site: the
envelope-level `atob`, `JSON.parse`, the field accesses (a missing or
non-string field makes the field-level `atob` throw), the field-level
`atob` on corrupt base64, and AEAD tag verification. -/
inductive DecryptError where
  | invalidBase64
  | invalidJson
  | missingField
  | authenticationFailed
deriving DecidableEq, Repr

def jGet : JFields → String → Option Json
  | .nil, _ => none
  | .cons k v fs, key => if k = key then some v else jGet fs key

def Json.getField : Json → String → Option Json
  | .obj fs, key => jGet fs key
  | _, _ => none

/-- Field access plus base64 decoding as in decrypt step 3. -/
def getBytesField (p : Json) (key : String) : Except DecryptError (List Nat) :=
  match p.getField key with
  | some (.str s) =>
    match atobCodes s with
    | some bytes => .ok bytes
    | none => .error .invalidBase64
  | _ => .error .missingField

structure ParsedEnvelope where
  payload : Json
  salt : List Nat
  nonce : List Nat
  ciphertext : List Nat

/-- Lifts an optional result into `Except` with the given error. -/
def optionToExcept (e : DecryptError) : Option α → Except DecryptError α
  | some a => .ok a
  | none => .error e

/-- Steps 1-3 of `decryptText`: base64-decode the envelope, parse the
JSON, extract and base64-decode the salt, nonce and ciphertext fields.
No version check and no length check appears here, mirroring the
source. -/
def deserializeEnvelope (envelope : String) : Except DecryptError ParsedEnvelope :=
  (optionToExcept .invalidBase64 (atobCodes envelope)).bind (fun codes =>
    (optionToExcept .invalidJson (Json.parse (codesStr codes))).bind (fun payload =>
      (getBytesField payload "salt").bind (fun salt =>
        (getBytesField payload "nonce").bind (fun nonce =>
          (getBytesField payload "ciphertext").map (fun ct =>
            ⟨payload, salt, nonce, ct⟩)))))

/-- JavaScript truthiness on the JSON fragment. -/
def jsTruthy : Json → Bool
  | .num n => n != 0
  | .str s => s != ""
  | .obj _ => true

/-- Model of JavaScript `a || b` over possibly-missing field values. -/
def jsFieldOr (a b : Option Json) : Option Json :=
  match a with
  | some v => if jsTruthy v then some v else b
  | none => b

/-- Numeric value of an optional field; `dflt` is the `argon2-browser`
documented default used when the library receives `undefined` for the
corresponding argument. -/
def toNatOr (dflt : Nat) : Option Json → Nat
  | some (.num n) => n
  | some _ => dflt
  | none => dflt

structure KdfArgs where
  time : Nat
  mem : Nat
  hashLen : Nat
deriving DecidableEq, Repr

/-- Argon2 arguments read from the envelope's `params` object,
including the `params.hashLen || params.hashLength` shim. -/
def paramsFromJson (ps : Json) : KdfArgs :=
  { time := toNatOr 1 (ps.getField "iterations")
  , mem := toNatOr 1024 (ps.getField "memory")
  , hashLen := toNatOr 24 (jsFieldOr (ps.getField "hashLen") (ps.getField "hashLength")) }

/-- Argon2 arguments when the code falls back to the settings object
returned by `getEncryptionSettings` (its fields are `iterations`,
`memory`, `hashLength`; it has no `hashLen` member, so the shim reads
`hashLength`). -/
def paramsFromSettings (s : Settings) : KdfArgs :=
  ⟨s.iterations, s.memory, s.hashLength⟩

/-- The Argon2 arguments `decryptText` uses: the embedded `params` when
present and truthy, the ambient settings otherwise. -/
def decryptArgs (store : Option Settings) (payload : Json) : KdfArgs :=
  match payload.getField "params" with
  | some ps =>
    if jsTruthy ps then paramsFromJson ps
    else paramsFromSettings (getEncryptionSettings store)
  | none => paramsFromSettings (getEncryptionSettings store)

/-- Step 5: open the AEAD and decode the plaintext, or fail
authentication. -/
def openStep (prims : CryptoPrims) (key nonce ct : List Nat) :
    Except DecryptError String :=
  match prims.aeadOpen key nonce ct with
  | some pt => .ok (utf8Decode pt)
  | none => .error .authenticationFailed

/-- Model of `decryptText` before error normalisation, keeping the
throw sites distinguishable: deserialize, re-derive the key from the
embedded params — falling back to the ambient settings only when the
payload has no truthy `params` member — then open the AEAD. -/
def decryptTextCore (prims : CryptoPrims) (store : Option Settings)
    (envelope secret : String) : Except DecryptError String :=
  (deserializeEnvelope envelope).bind (fun e =>
    let args := decryptArgs store e.payload
    openStep prims (prims.argonHash secret e.salt args.time args.mem args.hashLen)
      e.nonce e.ciphertext)

def decryptFailMessage : String := "Decryption failed. Check secret phrase or input data."

/-- Model of `decryptText`: every internal failure is caught at the
function boundary and re-raised as the single user-facing message. -/
def decryptText (prims : CryptoPrims) (store : Option Settings)
    (envelope secret : String) : Except String String :=
  (decryptTextCore prims store envelope secret).mapError (fun _ => decryptFailMessage)

/-! ## Model of `calculatePasswordStrength` -/

def isLowerAlpha (c : Char) : Bool := 'a' ≤ c && c ≤ 'z'

def isUpperAlpha (c : Char) : Bool := 'A' ≤ c && c ≤ 'Z'

def isAlnumAscii (c : Char) : Bool := isLowerAlpha c || isUpperAlpha c || c.isDigit

/-- Line terminators that the JavaScript regex dot does not match. -/
def isLineTerminator (c : Char) : Bool :=
  c = Char.ofNat 10 || c = Char.ofNat 13 || c = Char.ofNat 0x2028 || c = Char.ofNat 0x2029

/-- State machine for the regex `(.)` followed by the same character at
least twice more: `p2`, `p1` are the previous two characters. -/
def tripleRepeatGo (p2 p1 : Option Char) : List Char → Bool
  | [] => false
  | c :: rest =>
    match p2, p1 with
    | some a, some b =>
      (!isLineTerminator a && a == b && b == c) || tripleRepeatGo (some b) (some c) rest
    | _, _ => tripleRepeatGo p1 (some c) rest

/-- Does the password contain three or more consecutive equal
characters (the first not a line terminator)? -/
def hasTripleRepeat (l : List Char) : Bool := tripleRepeatGo none none l

/-- Model of `calculatePasswordStrength`: additive length and
character-class scores, penalties for repeated characters, all-digit
and all-alphabetic inputs, clamped to [0, 100].  String length is the
scalar count (the environment counts UTF-16 units, which differs only
on astral-plane characters). -/
def calculatePasswordStrength (password : String) : Int :=
  let cs := password.data
  let strength : Int :=
    (if 8 ≤ cs.length then 20 else 0) + (if 12 ≤ cs.length then 10 else 0)
    + (if 16 ≤ cs.length then 10 else 0)
    + (if cs.any isLowerAlpha then 10 else 0)
    + (if cs.any isUpperAlpha then 10 else 0)
    + (if cs.any Char.isDigit then 10 else 0)
    + (if cs.any (fun c => !isAlnumAscii c) then 20 else 0)
    - (if hasTripleRepeat cs then 10 else 0)
    - (if !cs.isEmpty && cs.all Char.isDigit then 10 else 0)
    - (if !cs.isEmpty && cs.all (fun c => isLowerAlpha c || isUpperAlpha c) then 10 else 0)
  max 0 (min 100 strength)

/-! ## Envelope round-trip lemmas -/

theorem codesStr_strCodes (s : String) : codesStr (strCodes s) = s := by
  apply String.ext
  show (s.data.map Char.toNat).map Char.ofNat = s.data
  rw [List.map_map]
  have : ∀ c ∈ s.data, (Char.ofNat ∘ Char.toNat) c = id c := by
    intro c _
    exact charOfNat_toNat c
  rw [List.map_congr_left this, List.map_id]

theorem strCodes_bytes (p : Json) (h : asciiJson p = true) :
    isBytes (strCodes (Json.stringify p)) := by
  intro b hb
  obtain ⟨c, hc, hcb⟩ := List.mem_map.mp hb
  have := stringify_ascii p h c hc
  omega

/-- General crafted-envelope payload: version, the three byte fields,
and an optional `params` member. -/
def envPayload (v : Nat) (salt nonce ct : List Nat) (ps : Option Json) : Json :=
  .obj (.cons "v" (.num v)
    (.cons "salt" (.str (btoa salt))
      (.cons "nonce" (.str (btoa nonce))
        (.cons "ciphertext" (.str (btoa ct))
          (match ps with
           | some p => .cons "params" p .nil
           | none => .nil)))))

/-- The params object embedded by `encryptText`. -/
def srcParams (s : Settings) : Json :=
  .obj (.cons "iterations" (.num s.iterations)
    (.cons "memory" (.num s.memory)
      (.cons "hashLen" (.num s.hashLength) .nil)))

theorem encPayload_eq_envPayload (salt nonce ct : List Nat) (s : Settings) :
    encPayload salt nonce ct s = envPayload 1 salt nonce ct (some (srcParams s)) := rfl

theorem envPayload_simple (v : Nat) (salt nonce ct : List Nat) (ps : Option Json)
    (hps : ∀ p, ps = some p → simpleJson p = true) :
    simpleJson (envPayload v salt nonce ct ps) = true := by
  cases ps with
  | none =>
    simp only [envPayload, simpleJson, simpleFields, Bool.and_eq_true, decide_eq_true_eq]
    exact ⟨⟨by decide, trivial⟩, ⟨by decide, btoaChunks_no_quote salt⟩,
      ⟨by decide, btoaChunks_no_quote nonce⟩, ⟨by decide, btoaChunks_no_quote ct⟩, trivial⟩
  | some p =>
    simp only [envPayload, simpleJson, simpleFields, Bool.and_eq_true, decide_eq_true_eq]
    exact ⟨⟨by decide, trivial⟩, ⟨by decide, btoaChunks_no_quote salt⟩,
      ⟨by decide, btoaChunks_no_quote nonce⟩, ⟨by decide, btoaChunks_no_quote ct⟩,
      ⟨by decide, hps p rfl⟩, trivial⟩

theorem envPayload_ascii (v : Nat) (salt nonce ct : List Nat) (ps : Option Json)
    (hps : ∀ p, ps = some p → asciiJson p = true) :
    asciiJson (envPayload v salt nonce ct ps) = true := by
  have hb : ∀ l : List Nat, (btoa l).data.all (fun c => decide (c.toNat < 128)) = true := by
    intro l
    rw [List.all_eq_true]
    intro c hc
    exact decide_eq_true (btoaChunks_ascii l c hc)
  cases ps with
  | none =>
    simp only [envPayload, asciiJson, asciiFields, Bool.and_eq_true]
    exact ⟨⟨by decide, trivial⟩, ⟨by decide, hb salt⟩, ⟨by decide, hb nonce⟩,
      ⟨by decide, hb ct⟩, trivial⟩
  | some p =>
    simp only [envPayload, asciiJson, asciiFields, Bool.and_eq_true]
    exact ⟨⟨by decide, trivial⟩, ⟨by decide, hb salt⟩, ⟨by decide, hb nonce⟩,
      ⟨by decide, hb ct⟩, ⟨by decide, hps p rfl⟩, trivial⟩

theorem srcParams_simple (s : Settings) : simpleJson (srcParams s) = true := by
  simp [srcParams, simpleJson, simpleFields]

theorem srcParams_ascii (s : Settings) : asciiJson (srcParams s) = true := by
  simp [srcParams, asciiJson, asciiFields]

theorem optionToExcept_some (e : DecryptError) (a : α) :
    optionToExcept e (some a) = .ok a := rfl

theorem optionToExcept_none (e : DecryptError) :
    optionToExcept e (none : Option α) = .error e := rfl

theorem exceptBind_ok (a : α) (f : α → Except ε β) :
    (Except.ok a : Except ε α).bind f = f a := rfl

theorem exceptBind_error (e : ε) (f : α → Except ε β) :
    (Except.error e : Except ε α).bind f = .error e := rfl

/-- Deserialisation of a well-formed envelope recovers the payload and
the three byte fields — for any version value and any byte lengths. -/
theorem deserializeEnvelope_payload (v : Nat) (salt nonce ct : List Nat) (ps : Option Json)
    (hps : ∀ p, ps = some p → simpleJson p = true)
    (hpa : ∀ p, ps = some p → asciiJson p = true)
    (hs : isBytes salt) (hn : isBytes nonce) (hc : isBytes ct) :
    deserializeEnvelope (btoa (strCodes (Json.stringify (envPayload v salt nonce ct ps))))
      = .ok ⟨envPayload v salt nonce ct ps, salt, nonce, ct⟩ := by
  unfold deserializeEnvelope
  rw [atobCodes_btoa _ (strCodes_bytes _ (envPayload_ascii v salt nonce ct ps hpa)),
    optionToExcept_some, exceptBind_ok, codesStr_strCodes,
    json_parse_stringify _ (envPayload_simple v salt nonce ct ps hps),
    optionToExcept_some, exceptBind_ok]
  have h1 : getBytesField (envPayload v salt nonce ct ps) "salt" = .ok salt := by
    cases ps <;>
      simp [getBytesField, envPayload, Json.getField, jGet, atobCodes_btoa salt hs]
  have h2 : getBytesField (envPayload v salt nonce ct ps) "nonce" = .ok nonce := by
    cases ps <;>
      simp [getBytesField, envPayload, Json.getField, jGet, atobCodes_btoa nonce hn]
  have h3 : getBytesField (envPayload v salt nonce ct ps) "ciphertext" = .ok ct := by
    cases ps <;>
      simp [getBytesField, envPayload, Json.getField, jGet, atobCodes_btoa ct hc]
  rw [h1, exceptBind_ok, h2, exceptBind_ok, h3]
  rfl

/-! ## Decrypt-side reduction lemmas -/

/-- Generic params object using the `hashLen` field name (as embedded
by `encryptText`). -/
def lenParams (it mem h : Nat) : Json :=
  .obj (.cons "iterations" (.num it)
    (.cons "memory" (.num mem)
      (.cons "hashLen" (.num h) .nil)))

/-- Generic params object using the `hashLength` field name instead. -/
def lengthParams (it mem h : Nat) : Json :=
  .obj (.cons "iterations" (.num it)
    (.cons "memory" (.num mem)
      (.cons "hashLength" (.num h) .nil)))

theorem srcParams_eq_lenParams (s : Settings) :
    srcParams s = lenParams s.iterations s.memory s.hashLength := rfl

theorem lenParams_simple (it mem h : Nat) : simpleJson (lenParams it mem h) = true := by
  simp [lenParams, simpleJson, simpleFields]

theorem lenParams_ascii (it mem h : Nat) : asciiJson (lenParams it mem h) = true := by
  simp [lenParams, asciiJson, asciiFields]

theorem lengthParams_simple (it mem h : Nat) :
    simpleJson (lengthParams it mem h) = true := by
  simp [lengthParams, simpleJson, simpleFields]

theorem lengthParams_ascii (it mem h : Nat) :
    asciiJson (lengthParams it mem h) = true := by
  simp [lengthParams, asciiJson, asciiFields]

theorem paramsFromJson_lenParams (it mem h : Nat) (hh : h ≠ 0) :
    paramsFromJson (lenParams it mem h) = ⟨it, mem, h⟩ := by
  have hb : (h != 0) = true := by simp [bne_iff_ne, hh]
  simp [paramsFromJson, lenParams, Json.getField, jGet, jsFieldOr, jsTruthy, toNatOr, hb]

theorem paramsFromJson_lengthParams (it mem h : Nat) :
    paramsFromJson (lengthParams it mem h) = ⟨it, mem, h⟩ := by
  simp [paramsFromJson, lengthParams, Json.getField, jGet, jsFieldOr, jsTruthy, toNatOr]

theorem decryptArgs_params (store : Option Settings) (v : Nat)
    (salt nonce ct : List Nat) (ps : Json) (ht : jsTruthy ps = true) :
    decryptArgs store (envPayload v salt nonce ct (some ps)) = paramsFromJson ps := by
  have hget : (envPayload v salt nonce ct (some ps)).getField "params" = some ps := rfl
  rw [decryptArgs, hget]
  simp only [ht, if_true]

theorem decryptArgs_noParams (store : Option Settings) (v : Nat)
    (salt nonce ct : List Nat) :
    decryptArgs store (envPayload v salt nonce ct none)
      = paramsFromSettings (getEncryptionSettings store) := by
  have hget : (envPayload v salt nonce ct none).getField "params" = none := rfl
  rw [decryptArgs, hget]

/-- Reduction of `decryptTextCore` on any well-formed crafted envelope:
after deserialisation, decryption is exactly key re-derivation from the
envelope's own arguments followed by the AEAD open step. -/
theorem decryptTextCore_env (prims : CryptoPrims) (store : Option Settings)
    (secret : String) (v : Nat) (salt nonce ct : List Nat) (ps : Option Json)
    (hps : ∀ p, ps = some p → simpleJson p = true)
    (hpa : ∀ p, ps = some p → asciiJson p = true)
    (hs : isBytes salt) (hn : isBytes nonce) (hc : isBytes ct) :
    decryptTextCore prims store
      (btoa (strCodes (Json.stringify (envPayload v salt nonce ct ps)))) secret
      = openStep prims
          (prims.argonHash secret salt
            (decryptArgs store (envPayload v salt nonce ct ps)).time
            (decryptArgs store (envPayload v salt nonce ct ps)).mem
            (decryptArgs store (envPayload v salt nonce ct ps)).hashLen)
          nonce ct := by
  unfold decryptTextCore
  rw [deserializeEnvelope_payload v salt nonce ct ps hps hpa hs hn hc, exceptBind_ok]

/-- Decrypting an `encryptText` output reduces to opening the sealed
bytes under the key re-derived from the embedded parameters — for any
ambient settings at decryption time. -/
theorem decrypt_of_encrypt (prims : CryptoPrims) (store store2 : Option Settings)
    (salt nonce : List Nat) (plaintext secret secret2 : String)
    (hs : isBytes salt) (hn : isBytes nonce)
    (hct : isBytes (sealedBytes prims store salt nonce plaintext secret))
    (hh : 0 < (getEncryptionSettings store).hashLength) :
    decryptTextCore prims store2 (encryptText prims store salt nonce plaintext secret) secret2
      = openStep prims (encKey prims store salt secret2) nonce
          (sealedBytes prims store salt nonce plaintext secret) := by
  rw [encryptText, encPayload_eq_envPayload]
  rw [decryptTextCore_env prims store2 secret2 1 salt nonce _ (some (srcParams _))
    (fun p hp => by rw [← Option.some_inj.mp hp]; exact srcParams_simple _)
    (fun p hp => by rw [← Option.some_inj.mp hp]; exact srcParams_ascii _)
    hs hn hct]
  rw [decryptArgs_params _ _ _ _ _ _ (by rfl), srcParams_eq_lenParams,
    paramsFromJson_lenParams _ _ _ (by omega)]
  rfl

/-! ## Claim-level helpers -/

def isOkE : Except ε α → Bool
  | .ok _ => true
  | .error _ => false

theorem exceptMapError_ok (f : ε → η) (a : α) :
    (Except.ok a : Except ε α).mapError f = .ok a := rfl

theorem exceptMapError_error (f : ε → η) (e : ε) :
    (Except.error e : Except ε α).mapError f = .error (f e) := rfl

theorem isBytes_set (l : List Nat) (i b : Nat) (hl : isBytes l) (hb : b < 256) :
    isBytes (l.set i b) := by
  intro x hx
  rcases List.mem_or_eq_of_mem_set hx with hx | hx
  · exact hl x hx
  · omega

/-- Successful decryption of an `encryptText` output, under any ambient
settings at decryption time, whenever the AEAD opens its own seal at
the involved values. -/
theorem decryptText_encrypt_ok (prims : CryptoPrims) (store store2 : Option Settings)
    (salt nonce : List Nat) (plaintext secret : String)
    (hs : isBytes salt) (hn : isBytes nonce)
    (hct : isBytes (sealedBytes prims store salt nonce plaintext secret))
    (hh : 0 < (getEncryptionSettings store).hashLength)
    (hopen : prims.aeadOpen (encKey prims store salt secret) nonce
      (sealedBytes prims store salt nonce plaintext secret)
      = some (utf8Encode plaintext)) :
    decryptText prims store2 (encryptText prims store salt nonce plaintext secret) secret
      = .ok plaintext := by
  unfold decryptText
  rw [decrypt_of_encrypt prims store store2 salt nonce plaintext secret secret hs hn hct hh]
  unfold openStep
  rw [hopen]
  show Except.mapError _ (.ok (utf8Decode (utf8Encode plaintext))) = _
  rw [utf8Decode_utf8Encode]
  rfl

theorem getBytesField_ne_auth (p : Json) (key : String) :
    getBytesField p key ≠ .error .authenticationFailed := by
  unfold getBytesField
  cases hp : p.getField key with
  | none => simp
  | some j =>
    cases j with
    | num n => simp
    | obj fs => simp
    | str s => cases h : atobCodes s <;> simp [h]

/-- The deserialisation stage never produces an authentication-class
error (it does not even receive the secret). -/
theorem deserialize_ne_auth (env : String) :
    deserializeEnvelope env ≠ .error .authenticationFailed := by
  unfold deserializeEnvelope
  cases atobCodes env with
  | none => simp [optionToExcept, Except.bind]
  | some codes =>
    rw [optionToExcept_some, exceptBind_ok]
    cases Json.parse (codesStr codes) with
    | none => simp [optionToExcept, Except.bind]
    | some payload =>
      rw [optionToExcept_some, exceptBind_ok]
      cases h1 : getBytesField payload "salt" with
      | error e =>
        rw [exceptBind_error]
        intro hcon
        injection hcon with he
        exact getBytesField_ne_auth payload "salt" (he ▸ h1)
      | ok salt =>
        rw [exceptBind_ok]
        cases h2 : getBytesField payload "nonce" with
        | error e =>
          rw [exceptBind_error]
          intro hcon
          injection hcon with he
          exact getBytesField_ne_auth payload "nonce" (he ▸ h2)
        | ok nonce =>
          rw [exceptBind_ok]
          cases h3 : getBytesField payload "ciphertext" with
          | error e =>
            intro hcon
            have h4 : (Except.error e : Except DecryptError ParsedEnvelope)
                = .error .authenticationFailed := hcon
            injection h4 with he
            exact getBytesField_ne_auth payload "ciphertext" (he ▸ h3)
          | ok ct =>
            intro hcon
            exact Except.noConfusion
              (show (Except.ok (ParsedEnvelope.mk payload salt nonce ct) :
                Except DecryptError ParsedEnvelope) = .error .authenticationFailed from hcon)

/-- Concrete primitives used to witness the theorems: a toy injective
key derivation and a toy AEAD whose seal appends key and nonce and
whose open checks that trailer. -/
def toyPrims : CryptoPrims where
  argonHash := fun pass salt time mem hashLen =>
    pass.data.map Char.toNat ++ [salt.sum % 256, time % 256, mem % 256, hashLen % 256]
  aeadSeal := fun key nonce pt => pt ++ key ++ nonce
  aeadOpen := fun key nonce ct =>
    if (key ++ nonce).length ≤ ct.length ∧
        ct.drop (ct.length - (key ++ nonce).length) = key ++ nonce then
      some (ct.take (ct.length - (key ++ nonce).length))
    else none

/-! ## Claims -/

/-- C1: Round-trip — for every plaintext string and every passphrase,
`decryptText` applied to the envelope string returned by `encryptText`
with the same passphrase returns the plaintext byte-for-byte (UTF-8
round-trip).  The salt and nonce quantify over the randomness drawn by
the call; the derived-key length is positive per the documented
settings invariant (derivedKeyLengthBytes ∈ {16, 32, 64}); and the AEAD
round-trip property of the external AES-GCM primitive at the involved
values is an explicit hypothesis. -/
theorem c1_roundtrip (prims : CryptoPrims) (store : Option Settings)
    (salt nonce : List Nat) (plaintext secret : String)
    (hs : isBytes salt) (hn : isBytes nonce)
    (hct : isBytes (sealedBytes prims store salt nonce plaintext secret))
    (hh : 0 < (getEncryptionSettings store).hashLength)
    (hopen : prims.aeadOpen (encKey prims store salt secret) nonce
      (sealedBytes prims store salt nonce plaintext secret)
      = some (utf8Encode plaintext)) :
    decryptText prims store (encryptText prims store salt nonce plaintext secret) secret
      = .ok plaintext :=
  decryptText_encrypt_ok prims store store salt nonce plaintext secret hs hn hct hh hopen

theorem c1_roundtrip_witness :
    (isBytes [1] ∧ isBytes [2] ∧
      isBytes (sealedBytes toyPrims none [1] [2] "a" "x") ∧
      0 < (getEncryptionSettings none).hashLength ∧
      toyPrims.aeadOpen (encKey toyPrims none [1] "x") [2]
        (sealedBytes toyPrims none [1] [2] "a" "x") = some (utf8Encode "a")) ∧
    decryptText toyPrims none (encryptText toyPrims none [1] [2] "a" "x") "x"
      = .ok "a" :=
  ⟨⟨by decide, by decide, by decide, by decide, by decide⟩,
    c1_roundtrip toyPrims none [1] [2] "a" "x"
      (by decide) (by decide) (by decide) (by decide) (by decide)⟩

/-- C2: Parameter preservation — an envelope produced under the
parameter set of `storeA` still decrypts correctly when the ambient
settings have changed to any other store `storeB`: `decryptText`
re-derives the key from the parameters embedded in the envelope, not
from the caller's current settings. -/
theorem c2_params_preserved (prims : CryptoPrims) (storeA storeB : Option Settings)
    (salt nonce : List Nat) (plaintext secret : String)
    (hs : isBytes salt) (hn : isBytes nonce)
    (hct : isBytes (sealedBytes prims storeA salt nonce plaintext secret))
    (hh : 0 < (getEncryptionSettings storeA).hashLength)
    (hopen : prims.aeadOpen (encKey prims storeA salt secret) nonce
      (sealedBytes prims storeA salt nonce plaintext secret)
      = some (utf8Encode plaintext)) :
    decryptText prims storeB (encryptText prims storeA salt nonce plaintext secret) secret
      = .ok plaintext :=
  decryptText_encrypt_ok prims storeA storeB salt nonce plaintext secret hs hn hct hh hopen

theorem c2_params_preserved_witness :
    (isBytes [3] ∧ isBytes [4] ∧
      isBytes (sealedBytes toyPrims none [3] [4] "hi" "pw") ∧
      0 < (getEncryptionSettings none).hashLength ∧
      toyPrims.aeadOpen (encKey toyPrims none [3] "pw") [4]
        (sealedBytes toyPrims none [3] [4] "hi" "pw") = some (utf8Encode "hi")) ∧
    decryptText toyPrims (some ⟨7, 64, 16⟩)
      (encryptText toyPrims none [3] [4] "hi" "pw") "pw" = .ok "hi" :=
  ⟨⟨by decide, by decide, by decide, by decide, by decide⟩,
    c2_params_preserved toyPrims none (some ⟨7, 64, 16⟩) [3] [4] "hi" "pw"
      (by decide) (by decide) (by decide) (by decide) (by decide)⟩

/-- The envelope obtained from an `encryptText` output by replacing
byte `i` of its sealed data with `b` and re-serialising. -/
def tamperEnvelope (prims : CryptoPrims) (store : Option Settings)
    (salt nonce : List Nat) (plaintext secret : String) (i b : Nat) : String :=
  btoa (strCodes (Json.stringify (envPayload 1 salt nonce
    ((sealedBytes prims store salt nonce plaintext secret).set i b)
    (some (srcParams (getEncryptionSettings store))))))

/-- C4: Authenticity — decrypting with a different passphrase fails
with an authentication-class error whenever the AEAD rejects the seal
under the wrongly derived key, and altering any single byte of the
envelope's sealed data makes decryption under the original passphrase
fail with an authentication-class error (never returning an altered
plaintext) whenever the AEAD rejects the tampered ciphertext.  The
AEAD rejections are the ideal-cipher properties of the external
AES-GCM primitive, taken as pointwise hypotheses. -/
theorem c4_authenticity (prims : CryptoPrims) (store : Option Settings)
    (salt nonce : List Nat) (plaintext secret secret2 : String) (i b : Nat)
    (hs : isBytes salt) (hn : isBytes nonce)
    (hct : isBytes (sealedBytes prims store salt nonce plaintext secret))
    (hh : 0 < (getEncryptionSettings store).hashLength)
    (_hne : secret ≠ secret2) :
    (prims.aeadOpen (encKey prims store salt secret2) nonce
        (sealedBytes prims store salt nonce plaintext secret) = none →
      decryptTextCore prims store (encryptText prims store salt nonce plaintext secret)
        secret2 = .error .authenticationFailed)
    ∧ (b < 256 →
        b ≠ (sealedBytes prims store salt nonce plaintext secret).getD i 0 →
        prims.aeadOpen (encKey prims store salt secret) nonce
          ((sealedBytes prims store salt nonce plaintext secret).set i b) = none →
        decryptTextCore prims store
          (tamperEnvelope prims store salt nonce plaintext secret i b) secret
          = .error .authenticationFailed) := by
  constructor
  · intro hopen
    rw [decrypt_of_encrypt prims store store salt nonce plaintext secret secret2 hs hn hct hh]
    unfold openStep
    rw [hopen]
  · intro hb _ hopen
    unfold tamperEnvelope
    rw [decryptTextCore_env prims store secret 1 salt nonce _
      (some (srcParams (getEncryptionSettings store)))
      (fun p hp => by rw [← Option.some_inj.mp hp]; exact srcParams_simple _)
      (fun p hp => by rw [← Option.some_inj.mp hp]; exact srcParams_ascii _)
      hs hn (isBytes_set _ i b hct hb)]
    rw [decryptArgs_params _ _ _ _ _ _ (by rfl), srcParams_eq_lenParams,
      paramsFromJson_lenParams _ _ _ (by omega)]
    unfold openStep
    rw [show (⟨(getEncryptionSettings store).iterations, (getEncryptionSettings store).memory,
      (getEncryptionSettings store).hashLength⟩ : KdfArgs).time
        = (getEncryptionSettings store).iterations from rfl]
    rw [show (⟨(getEncryptionSettings store).iterations, (getEncryptionSettings store).memory,
      (getEncryptionSettings store).hashLength⟩ : KdfArgs).mem
        = (getEncryptionSettings store).memory from rfl]
    rw [show (⟨(getEncryptionSettings store).iterations, (getEncryptionSettings store).memory,
      (getEncryptionSettings store).hashLength⟩ : KdfArgs).hashLen
        = (getEncryptionSettings store).hashLength from rfl]
    rw [show prims.argonHash secret salt (getEncryptionSettings store).iterations
      (getEncryptionSettings store).memory (getEncryptionSettings store).hashLength
        = encKey prims store salt secret from rfl]
    rw [hopen]

theorem c4_authenticity_witness :
    (isBytes [1] ∧ isBytes [2] ∧
      isBytes (sealedBytes toyPrims none [1] [2] "a" "x") ∧
      0 < (getEncryptionSettings none).hashLength ∧ "x" ≠ "y" ∧
      toyPrims.aeadOpen (encKey toyPrims none [1] "y") [2]
        (sealedBytes toyPrims none [1] [2] "a" "x") = none ∧
      (0 : Nat) < 256 ∧
      (0 : Nat) ≠ (sealedBytes toyPrims none [1] [2] "a" "x").getD 1 0 ∧
      toyPrims.aeadOpen (encKey toyPrims none [1] "x") [2]
        ((sealedBytes toyPrims none [1] [2] "a" "x").set 1 0) = none) ∧
    decryptTextCore toyPrims none (encryptText toyPrims none [1] [2] "a" "x") "y"
      = .error .authenticationFailed ∧
    decryptTextCore toyPrims none (tamperEnvelope toyPrims none [1] [2] "a" "x" 1 0) "x"
      = .error .authenticationFailed :=
  ⟨⟨by decide, by decide, by decide, by decide, by decide, by decide, by decide,
    by decide, by decide⟩,
    (c4_authenticity toyPrims none [1] [2] "a" "x" "y" 1 0
      (by decide) (by decide) (by decide) (by decide) (by decide)).1 (by decide),
    (c4_authenticity toyPrims none [1] [2] "a" "x" "y" 1 0
      (by decide) (by decide) (by decide) (by decide) (by decide)).2
      (by decide) (by decide) (by decide)⟩

/-- C6: Non-determinism of output, determinism of plaintext — two
`encryptText` calls with the same plaintext and passphrase but the
distinct fresh salt/nonce pairs drawn from the random source produce
different envelope strings, and both envelopes decrypt back to the
plaintext under the same passphrase. -/
theorem c6_fresh_randomness (prims : CryptoPrims) (store : Option Settings)
    (salt1 nonce1 salt2 nonce2 : List Nat) (plaintext secret : String)
    (hs1 : isBytes salt1) (hn1 : isBytes nonce1)
    (hs2 : isBytes salt2) (hn2 : isBytes nonce2)
    (hct1 : isBytes (sealedBytes prims store salt1 nonce1 plaintext secret))
    (hct2 : isBytes (sealedBytes prims store salt2 nonce2 plaintext secret))
    (hh : 0 < (getEncryptionSettings store).hashLength)
    (hsalt : salt1 ≠ salt2) (_hnonce : nonce1 ≠ nonce2)
    (hopen1 : prims.aeadOpen (encKey prims store salt1 secret) nonce1
      (sealedBytes prims store salt1 nonce1 plaintext secret)
      = some (utf8Encode plaintext))
    (hopen2 : prims.aeadOpen (encKey prims store salt2 secret) nonce2
      (sealedBytes prims store salt2 nonce2 plaintext secret)
      = some (utf8Encode plaintext)) :
    encryptText prims store salt1 nonce1 plaintext secret
      ≠ encryptText prims store salt2 nonce2 plaintext secret
    ∧ decryptText prims store (encryptText prims store salt1 nonce1 plaintext secret)
        secret = .ok plaintext
    ∧ decryptText prims store (encryptText prims store salt2 nonce2 plaintext secret)
        secret = .ok plaintext := by
  refine ⟨?_, decryptText_encrypt_ok prims store store salt1 nonce1 plaintext secret
      hs1 hn1 hct1 hh hopen1,
    decryptText_encrypt_ok prims store store salt2 nonce2 plaintext secret
      hs2 hn2 hct2 hh hopen2⟩
  intro henv
  have h1 : deserializeEnvelope (encryptText prims store salt1 nonce1 plaintext secret)
      = .ok ⟨envPayload 1 salt1 nonce1 (sealedBytes prims store salt1 nonce1 plaintext secret)
          (some (srcParams (getEncryptionSettings store))), salt1, nonce1,
          sealedBytes prims store salt1 nonce1 plaintext secret⟩ := by
    rw [encryptText, encPayload_eq_envPayload]
    exact deserializeEnvelope_payload 1 salt1 nonce1 _ _
      (fun p hp => by rw [← Option.some_inj.mp hp]; exact srcParams_simple _)
      (fun p hp => by rw [← Option.some_inj.mp hp]; exact srcParams_ascii _)
      hs1 hn1 hct1
  have h2 : deserializeEnvelope (encryptText prims store salt2 nonce2 plaintext secret)
      = .ok ⟨envPayload 1 salt2 nonce2 (sealedBytes prims store salt2 nonce2 plaintext secret)
          (some (srcParams (getEncryptionSettings store))), salt2, nonce2,
          sealedBytes prims store salt2 nonce2 plaintext secret⟩ := by
    rw [encryptText, encPayload_eq_envPayload]
    exact deserializeEnvelope_payload 1 salt2 nonce2 _ _
      (fun p hp => by rw [← Option.some_inj.mp hp]; exact srcParams_simple _)
      (fun p hp => by rw [← Option.some_inj.mp hp]; exact srcParams_ascii _)
      hs2 hn2 hct2
  rw [henv, h2] at h1
  have hsalts := congrArg (fun r => match r with
    | Except.ok e => e.salt
    | Except.error _ => []) h1
  exact hsalt (by simpa using hsalts.symm)

theorem c6_fresh_randomness_witness :
    (isBytes [1] ∧ isBytes [2] ∧ isBytes [9] ∧ isBytes [8] ∧
      isBytes (sealedBytes toyPrims none [1] [2] "a" "x") ∧
      isBytes (sealedBytes toyPrims none [9] [8] "a" "x") ∧
      0 < (getEncryptionSettings none).hashLength ∧
      ([1] : List Nat) ≠ [9] ∧ ([2] : List Nat) ≠ [8] ∧
      toyPrims.aeadOpen (encKey toyPrims none [1] "x") [2]
        (sealedBytes toyPrims none [1] [2] "a" "x") = some (utf8Encode "a") ∧
      toyPrims.aeadOpen (encKey toyPrims none [9] "x") [8]
        (sealedBytes toyPrims none [9] [8] "a" "x") = some (utf8Encode "a")) ∧
    (encryptText toyPrims none [1] [2] "a" "x" ≠ encryptText toyPrims none [9] [8] "a" "x"
      ∧ decryptText toyPrims none (encryptText toyPrims none [1] [2] "a" "x") "x" = .ok "a"
      ∧ decryptText toyPrims none (encryptText toyPrims none [9] [8] "a" "x") "x"
          = .ok "a") :=
  ⟨⟨by decide, by decide, by decide, by decide, by decide, by decide, by decide,
    by decide, by decide, by decide, by decide⟩,
    c6_fresh_randomness toyPrims none [1] [2] [9] [8] "a" "x"
      (by decide) (by decide) (by decide) (by decide) (by decide) (by decide)
      (by decide) (by decide) (by decide) (by decide) (by decide)⟩

/-- An envelope with unknown version 99, a 3-byte salt and a 1-byte
nonce. -/
def c3Envelope : String :=
  btoa (strCodes (Json.stringify (envPayload 99 [1, 2, 3] [4] [5, 6]
    (some (lenParams 7 8 9)))))

/-- C3 counterexample: decoding accepts an envelope whose version is
the unknown value 99 and whose salt and nonce are not 16 and 12 bytes —
no `UnsupportedVersion` and no `MalformedEnvelope` length failure
occurs at the decoding stage, contrary to the claim. -/
theorem c3_counterexample :
    deserializeEnvelope c3Envelope
      = .ok ⟨envPayload 99 [1, 2, 3] [4] [5, 6] (some (lenParams 7 8 9)),
          [1, 2, 3], [4], [5, 6]⟩ := by
  unfold c3Envelope
  exact deserializeEnvelope_payload 99 [1, 2, 3] [4] [5, 6] _
    (fun p hp => by rw [← Option.some_inj.mp hp]; exact lenParams_simple 7 8 9)
    (fun p hp => by rw [← Option.some_inj.mp hp]; exact lenParams_ascii 7 8 9)
    (by decide) (by decide) (by decide)

/-- C3 (amended): decoding performs no version check and no byte-length
validation — every envelope that base64-decodes to a JSON object with
string `salt`/`nonce`/`ciphertext` fields decodes successfully,
whatever its version value and field lengths; and decoding failures are
only structural, never authentication-class, so a structurally
well-formed envelope with a wrong secret is never rejected at the
decoding stage. -/
theorem c3_amended :
    (∀ (v : Nat) (salt nonce ct : List Nat) (ps : Option Json),
      (∀ p, ps = some p → simpleJson p = true) →
      (∀ p, ps = some p → asciiJson p = true) →
      isBytes salt → isBytes nonce → isBytes ct →
      deserializeEnvelope (btoa (strCodes (Json.stringify (envPayload v salt nonce ct ps))))
        = .ok ⟨envPayload v salt nonce ct ps, salt, nonce, ct⟩)
    ∧ (∀ envelope : String, deserializeEnvelope envelope ≠ .error .authenticationFailed) :=
  ⟨deserializeEnvelope_payload, deserialize_ne_auth⟩

theorem c3_amended_witness :
    (isBytes [10] ∧ isBytes [11] ∧ isBytes [12]) ∧
    deserializeEnvelope (btoa (strCodes (Json.stringify (envPayload 42 [10] [11] [12] none))))
      = .ok ⟨envPayload 42 [10] [11] [12] none, [10], [11], [12]⟩ ∧
    deserializeEnvelope "zz" ≠ .error .authenticationFailed :=
  ⟨⟨by decide, by decide, by decide⟩,
    c3_amended.1 42 [10] [11] [12] none
      (fun p hp => Option.noConfusion hp) (fun p hp => Option.noConfusion hp)
      (by decide) (by decide) (by decide),
    c3_amended.2 "zz"⟩

/-- C5: Error normalisation — every failure path of `decryptText` is
caught at the boundary and surfaced as the single user-facing message
(never a crash or an unclassified error), and the concrete input
"not-a-valid-envelope" fails inside the core with a structural
(base64) error for every passphrase and any primitives/settings. -/
theorem c5_error_normalisation :
    (∀ (prims : CryptoPrims) (store : Option Settings) (envelope secret : String),
      (∃ p, decryptText prims store envelope secret = .ok p) ∨
        decryptText prims store envelope secret = .error decryptFailMessage)
    ∧ (∀ (prims : CryptoPrims) (store : Option Settings) (secret : String),
        decryptTextCore prims store "not-a-valid-envelope" secret
          = .error .invalidBase64) := by
  constructor
  · intro prims store envelope secret
    unfold decryptText
    cases decryptTextCore prims store envelope secret with
    | ok p => exact Or.inl ⟨p, rfl⟩
    | error e => exact Or.inr rfl
  · intro prims store secret
    rfl

/-- C7: Strength heuristic — `calculatePasswordStrength` is a pure
function into [0, 100]; the empty string scores 0; sixteen repeated
`a` characters score 30 (low despite passing every length threshold,
because of the repeated-character and letters-only penalties); and a
16-character password mixing cases, a digit and a symbol scores 90,
at/near the maximum. -/
theorem c7_strength :
    (∀ pw : String,
      0 ≤ calculatePasswordStrength pw ∧ calculatePasswordStrength pw ≤ 100)
    ∧ calculatePasswordStrength "" = 0
    ∧ calculatePasswordStrength "aaaaaaaaaaaaaaaa" = 30
    ∧ calculatePasswordStrength "Abcdefgh1!jklmno" = 90 := by
  refine ⟨?_, by decide, by decide, by decide⟩
  intro pw
  unfold calculatePasswordStrength
  exact ⟨le_max_left 0 _, max_le (by norm_num) (min_le_left 100 _)⟩

/-- C8: Settings fallback on missing params — a syntactically valid
envelope whose payload has no `params` field passes deserialisation,
and `decryptText` then re-derives the key from the caller's current
ambient settings (`getEncryptionSettings`), so decryption succeeds
exactly when the AEAD opens under the ambient-settings key. -/
theorem c8_settings_fallback (prims : CryptoPrims) (store : Option Settings)
    (v : Nat) (salt nonce ct : List Nat) (secret : String)
    (hs : isBytes salt) (hn : isBytes nonce) (hc : isBytes ct) :
    deserializeEnvelope (btoa (strCodes (Json.stringify (envPayload v salt nonce ct none))))
      = .ok ⟨envPayload v salt nonce ct none, salt, nonce, ct⟩
    ∧ decryptTextCore prims store
        (btoa (strCodes (Json.stringify (envPayload v salt nonce ct none)))) secret
      = openStep prims
          (prims.argonHash secret salt (getEncryptionSettings store).iterations
            (getEncryptionSettings store).memory (getEncryptionSettings store).hashLength)
          nonce ct := by
  have hnone : ∀ p : Json, (none : Option Json) = some p → simpleJson p = true :=
    fun p hp => Option.noConfusion hp
  have hnone2 : ∀ p : Json, (none : Option Json) = some p → asciiJson p = true :=
    fun p hp => Option.noConfusion hp
  refine ⟨deserializeEnvelope_payload v salt nonce ct none hnone hnone2 hs hn hc, ?_⟩
  rw [decryptTextCore_env prims store secret v salt nonce ct none hnone hnone2 hs hn hc]
  rw [decryptArgs_noParams]
  rfl

theorem c8_settings_fallback_witness :
    (isBytes [1] ∧ isBytes [2] ∧ isBytes [3]) ∧
    (deserializeEnvelope (btoa (strCodes (Json.stringify (envPayload 1 [1] [2] [3] none))))
      = .ok ⟨envPayload 1 [1] [2] [3] none, [1], [2], [3]⟩
    ∧ decryptTextCore toyPrims none
        (btoa (strCodes (Json.stringify (envPayload 1 [1] [2] [3] none)))) "s"
      = openStep toyPrims
          (toyPrims.argonHash "s" [1] (getEncryptionSettings none).iterations
            (getEncryptionSettings none).memory (getEncryptionSettings none).hashLength)
          [2] [3]) :=
  ⟨⟨by decide, by decide, by decide⟩,
    c8_settings_fallback toyPrims none 1 [1] [2] [3] "s"
      (by decide) (by decide) (by decide)⟩

/-- C9: Key-length field-name shim — an envelope whose embedded params
carry the derived-key length under the field name `hashLength` instead
of `hashLen` decrypts identically to one using `hashLen` (for the
nonzero key lengths of the settings invariant), the key being
re-derived with that value in both cases. -/
theorem c9_hashLength_shim (prims : CryptoPrims) (store : Option Settings)
    (salt nonce ct : List Nat) (it mem hl : Nat) (secret : String)
    (hs : isBytes salt) (hn : isBytes nonce) (hc : isBytes ct) (hh : hl ≠ 0) :
    decryptTextCore prims store (btoa (strCodes (Json.stringify
        (envPayload 1 salt nonce ct (some (lengthParams it mem hl)))))) secret
      = decryptTextCore prims store (btoa (strCodes (Json.stringify
          (envPayload 1 salt nonce ct (some (lenParams it mem hl)))))) secret
    ∧ decryptTextCore prims store (btoa (strCodes (Json.stringify
        (envPayload 1 salt nonce ct (some (lengthParams it mem hl)))))) secret
      = openStep prims (prims.argonHash secret salt it mem hl) nonce ct := by
  have e1 : decryptTextCore prims store (btoa (strCodes (Json.stringify
      (envPayload 1 salt nonce ct (some (lengthParams it mem hl)))))) secret
      = openStep prims (prims.argonHash secret salt it mem hl) nonce ct := by
    rw [decryptTextCore_env prims store secret 1 salt nonce ct (some (lengthParams it mem hl))
      (fun p hp => by rw [← Option.some_inj.mp hp]; exact lengthParams_simple it mem hl)
      (fun p hp => by rw [← Option.some_inj.mp hp]; exact lengthParams_ascii it mem hl)
      hs hn hc]
    rw [decryptArgs_params _ _ _ _ _ _ (by rfl), paramsFromJson_lengthParams]
  have e2 : decryptTextCore prims store (btoa (strCodes (Json.stringify
      (envPayload 1 salt nonce ct (some (lenParams it mem hl)))))) secret
      = openStep prims (prims.argonHash secret salt it mem hl) nonce ct := by
    rw [decryptTextCore_env prims store secret 1 salt nonce ct (some (lenParams it mem hl))
      (fun p hp => by rw [← Option.some_inj.mp hp]; exact lenParams_simple it mem hl)
      (fun p hp => by rw [← Option.some_inj.mp hp]; exact lenParams_ascii it mem hl)
      hs hn hc]
    rw [decryptArgs_params _ _ _ _ _ _ (by rfl), paramsFromJson_lenParams it mem hl hh]
  exact ⟨e1.trans e2.symm, e1⟩

theorem c9_hashLength_shim_witness :
    (isBytes [1] ∧ isBytes [2] ∧ isBytes [3] ∧ (16 : Nat) ≠ 0) ∧
    (decryptTextCore toyPrims none (btoa (strCodes (Json.stringify
        (envPayload 1 [1] [2] [3] (some (lengthParams 2 64 16)))))) "s"
      = decryptTextCore toyPrims none (btoa (strCodes (Json.stringify
          (envPayload 1 [1] [2] [3] (some (lenParams 2 64 16)))))) "s"
    ∧ decryptTextCore toyPrims none (btoa (strCodes (Json.stringify
        (envPayload 1 [1] [2] [3] (some (lengthParams 2 64 16)))))) "s"
      = openStep toyPrims (toyPrims.argonHash "s" [1] 2 64 16) [2] [3]) :=
  ⟨⟨by decide, by decide, by decide, by decide⟩,
    c9_hashLength_shim toyPrims none [1] [2] [3] 2 64 16 "s"
      (by decide) (by decide) (by decide) (by decide)⟩

/-- C10: No InvalidInput check at the core boundary — `encryptText`
never validates emptiness of its arguments: with the empty plaintext,
and likewise with the empty passphrase, it still runs key derivation
and sealing and returns a well-formed envelope that deserialises and
round-trips through `decryptText` under the same passphrase. -/
theorem c10_no_input_validation (prims : CryptoPrims) (store : Option Settings)
    (salt nonce : List Nat) (plaintext secret : String)
    (hs : isBytes salt) (hn : isBytes nonce)
    (hh : 0 < (getEncryptionSettings store).hashLength)
    (hct1 : isBytes (sealedBytes prims store salt nonce "" secret))
    (hopen1 : prims.aeadOpen (encKey prims store salt secret) nonce
      (sealedBytes prims store salt nonce "" secret) = some (utf8Encode ""))
    (hct2 : isBytes (sealedBytes prims store salt nonce plaintext ""))
    (hopen2 : prims.aeadOpen (encKey prims store salt "") nonce
      (sealedBytes prims store salt nonce plaintext "") = some (utf8Encode plaintext)) :
    isOkE (deserializeEnvelope (encryptText prims store salt nonce "" secret)) = true
    ∧ decryptText prims store (encryptText prims store salt nonce "" secret) secret
        = .ok ""
    ∧ decryptText prims store (encryptText prims store salt nonce plaintext "") ""
        = .ok plaintext := by
  refine ⟨?_,
    decryptText_encrypt_ok prims store store salt nonce "" secret hs hn hct1 hh hopen1,
    decryptText_encrypt_ok prims store store salt nonce plaintext "" hs hn hct2 hh hopen2⟩
  rw [encryptText, encPayload_eq_envPayload,
    deserializeEnvelope_payload 1 salt nonce _ _
      (fun p hp => by rw [← Option.some_inj.mp hp]; exact srcParams_simple _)
      (fun p hp => by rw [← Option.some_inj.mp hp]; exact srcParams_ascii _)
      hs hn hct1]
  rfl

theorem c10_no_input_validation_witness :
    (isBytes [1] ∧ isBytes [2] ∧ 0 < (getEncryptionSettings none).hashLength ∧
      isBytes (sealedBytes toyPrims none [1] [2] "" "x") ∧
      toyPrims.aeadOpen (encKey toyPrims none [1] "x") [2]
        (sealedBytes toyPrims none [1] [2] "" "x") = some (utf8Encode "") ∧
      isBytes (sealedBytes toyPrims none [1] [2] "q" "") ∧
      toyPrims.aeadOpen (encKey toyPrims none [1] "") [2]
        (sealedBytes toyPrims none [1] [2] "q" "") = some (utf8Encode "q")) ∧
    (isOkE (deserializeEnvelope (encryptText toyPrims none [1] [2] "" "x")) = true
    ∧ decryptText toyPrims none (encryptText toyPrims none [1] [2] "" "x") "x" = .ok ""
    ∧ decryptText toyPrims none (encryptText toyPrims none [1] [2] "q" "") "" = .ok "q") :=
  ⟨⟨by decide, by decide, by decide, by decide, by decide, by decide, by decide⟩,
    c10_no_input_validation toyPrims none [1] [2] "q" "x"
      (by decide) (by decide) (by decide) (by decide) (by decide) (by decide) (by decide)⟩
